import Mathlib

/-!
Verification of the Spectral Hashing codec in `sh.py` (`train` and
`generate_code`).

Embedding conventions:
* numpy float arrays are modelled with exact rationals (`ℚ`); matrices are
  row-major `List (List ℚ)`.
* `np.sign` becomes `npSign`; `np.finfo(float).eps` is exactly `2⁻⁵²`.
* Every sine in the code is applied to an argument of the form `π * q` with
  `q` rational: `data * omega + π/2 = π * (data * (mode / R) + 1/2)` since
  `omega = mode * π / R`.  The encoder is therefore parameterised by a
  function `s : ℚ → ℚ` standing for `q ↦ sin (π * q)`; the lemma
  `sin_pi_factor` below records the factoring over `ℝ`, and `sin_pi_half`
  records `s (1/2) = 1` for the real sine.
* The eigenvalues `eig_val = -((modes * π / R)²).sum(1)` share the constant
  positive factor `π²`; the sort in `train` is modelled with the rational
  key `eigKey row R = Σ (modeⱼ / Rⱼ)²`, so that ascending `eigKey` is exactly
  ascending `-eig_val` (numpy's `(-eig_val).argsort()`).  The lemma
  `eig_val_eq_eigKey` ties the real eigenvalue to this key.  numpy's argsort
  is replaced by a sort; tie order between equal eigenvalues is unspecified
  in numpy, and no theorem below depends on it.
* The mutating slice-assignment loop that fills `modes` is embedded as
  `fillLoop` over the matrix viewed as an index function `ℕ → ℕ → ℤ`; the
  final array is materialised by `candidateRows`.  numpy slice clamping
  (`a[x:y]` with `y` past the end, or `x ≥ y`) is reflected by `List.take`
  and by the emptiness of the block condition.
* sklearn's `PCA` is external library code; its `transform` is the documented
  affine map `(X - mean_) @ components_.T`, embedded concretely in
  `pcaTransformRow`, while `fit` is modelled from the spec (`pcaFit`).
-/

namespace SH

/-- Error taxonomy of the spec (§7).  The source raises none of these itself;
`dimensionError` models the sklearn failure for invalid `n_components`,
`valueError` models numpy's rejection of a negative array dimension. -/
inductive ShError where
  | dimensionError
  | insufficientModes
  | valueError
deriving DecidableEq, Repr

/-- Embedding of `np.sign` on (finite) scalars: `-1`, `0` or `1`. -/
def npSign (x : ℚ) : ℚ := if x < 0 then -1 else if x = 0 then 0 else 1

/-- Embedding of `np.finfo(float).eps`, which is exactly `2⁻⁵²`. -/
def eps : ℚ := 1 / 2 ^ 52

/-- Minimum of a list (the reduction `np.min` performs on a nonempty axis);
junk value `0` on the empty list, where numpy would raise. -/
def listMin : List ℚ → ℚ
  | [] => 0
  | x :: xs => xs.foldl min x

/-- Maximum of a list (`np.max` / `.max()`); junk value `0` on `[]`. -/
def listMax : List ℚ → ℚ
  | [] => 0
  | x :: xs => xs.foldl max x

/-- Column `c` of a row-major matrix, as read by an axis-0 numpy reduction. -/
def colVals (X : List (List ℚ)) (c : ℕ) : List ℚ := X.map (fun row => row.getD c 0)

/-- Number of columns of a (rectangular) row-major matrix. -/
def ncols (X : List (List ℚ)) : ℕ := (X.headD []).length

/-- Embedding of `mn = X.min(0) - eps` in `train`. -/
def mnOf (X : List (List ℚ)) : List ℚ :=
  (List.range (ncols X)).map (fun c => listMin (colVals X c) - eps)

/-- Embedding of `mx = X.max(0) + eps` in `train`. -/
def mxOf (X : List (List ℚ)) : List ℚ :=
  (List.range (ncols X)).map (fun c => listMax (colVals X c) + eps)

/-- Embedding of `R = mx - mn` in `train`. -/
def ROf (X : List (List ℚ)) : List ℚ :=
  List.zipWith (fun a b => a - b) (mxOf X) (mnOf X)

/-- Embedding of `max_mode = np.ceil((code_length + 1) * R / R.max()).astype(int)`. -/
def max_mode (L : ℕ) (R : List ℚ) : List ℤ :=
  R.map (fun r => ⌈((L : ℚ) + 1) * r / listMax R⌉)

/-- Embedding of `n_modes = max_mode.sum() - len(max_mode) + 1` (an `ℤ`,
since for degenerate ranges the Python value can be non-positive). -/
def n_modes (L : ℕ) (R : List ℚ) : ℤ := (max_mode L R).sum - R.length + 1

/-- One step of the filling loop: the slice assignment
`modes[m + 1 : m + max_mode[i], i] = np.arange(1, max_mode[i]) + 1`,
which writes `r - m + 1` into column `i` of every row `r` with
`m + 1 ≤ r < m + max_mode[i]` and leaves everything else unchanged. -/
def assignBlock (i : ℕ) (m mmi : ℤ) (e : ℕ → ℕ → ℤ) : ℕ → ℕ → ℤ :=
  fun r c =>
    if c = i ∧ m + 1 ≤ (r : ℤ) ∧ (r : ℤ) < m + mmi then (r : ℤ) - m + 1 else e r c

/-- The loop `for i in range(code_length): ... ; m = m + max_mode[i] - 1`,
processing the entries of `max_mode` with current column `i` and offset `m`. -/
def fillLoop : List ℤ → ℕ → ℤ → (ℕ → ℕ → ℤ) → (ℕ → ℕ → ℤ)
  | [], _, _, e => e
  | mmi :: rest, i, m, e => fillLoop rest (i + 1) (m + mmi - 1) (assignBlock i m mmi e)

/-- Entry `(r, c)` of the candidate matrix after `modes = np.ones(...)`, the
filling loop, and `modes -= 1`. -/
def modesFun (L : ℕ) (R : List ℚ) (r c : ℕ) : ℤ :=
  fillLoop (max_mode L R) 0 0 (fun _ _ => 1) r c - 1

/-- The candidate matrix (`n_modes` rows, `code_length` columns) materialised
as a list of rows. -/
def candidateRows (L : ℕ) (R : List ℚ) : List (List ℤ) :=
  (List.range (n_modes L R).toNat).map (fun r => (List.range L).map (fun c => modesFun L R r c))

/-- Rational sort key of a candidate row: `Σⱼ (modeⱼ / Rⱼ)²`.  The code sorts
by ascending `-eig_val = Σⱼ (modeⱼ · π / Rⱼ)² = π² · eigKey`, and `π² > 0`,
so ascending `eigKey` is the same order (`eig_val_eq_eigKey` below). -/
def eigKey (row : List ℤ) (R : List ℚ) : ℚ :=
  (List.zipWith (fun (v : ℤ) (r : ℚ) => ((v : ℚ) / r) ^ 2) row R).sum

/-- The eigenvalue `eig_val = -((modes * π / R) ** 2).sum(1)` of one candidate
row, over the reals. -/
noncomputable def eig_val (row : List ℤ) (R : List ℚ) : ℝ :=
  -(List.zipWith (fun (v : ℤ) (r : ℚ) => ((v : ℝ) * Real.pi / (r : ℝ)) ^ 2) row R).sum

/-- Comparison used to model `(-eig_val).argsort()`: ascending rational key. -/
def eigLe (R : List ℚ) (a b : List ℤ) : Prop := eigKey a R ≤ eigKey b R

instance (R : List ℚ) : DecidableRel (eigLe R) := fun a b => by
  unfold eigLe; infer_instance

instance (R : List ℚ) : IsTotal (List ℤ) (eigLe R) :=
  ⟨fun a b => le_total (eigKey a R) (eigKey b R)⟩

instance (R : List ℚ) : IsTrans (List ℤ) (eigLe R) :=
  ⟨fun _ _ _ hab hbc => le_trans hab hbc⟩

/-- The candidate rows in the order `ii = (-eig_val).argsort()` produces. -/
def sortedCandidates (L : ℕ) (R : List ℚ) : List (List ℤ) :=
  List.insertionSort (eigLe R) (candidateRows L R)

/-- Embedding of the mode-table construction in `train` (lines 44–58 of
`sh.py`): enumerate candidates, sort by eigenvalue, and keep
`modes[ii[1 : code_length + 1]]`.  The only failure the Python code can hit
on this path is `np.ones` rejecting a negative row count; there is no
insufficient-modes check in the source, and a short selection silently
truncates exactly as the numpy fancy-indexing does. -/
def buildModeTable (L : ℕ) (R : List ℚ) : Except ShError (List (List ℤ)) :=
  if n_modes L R < 0 then .error .valueError
  else .ok (((sortedCandidates L R).drop 1).take L)

/-- The row with value `v` in dimension `i` and `0` elsewhere. -/
def singleAxis (L i : ℕ) (v : ℤ) : List ℤ :=
  (List.range L).map (fun c => if c = i then v else 0)

/-- Per-row angular frequencies divided by `π`: `omegas[k] / π = modes[k] / R`. -/
def omegaRow (row : List ℤ) (R : List ℚ) : List ℚ :=
  List.zipWith (fun (v : ℤ) (r : ℚ) => (v : ℚ) / r) row R

/-- One entry of `U`: `prod(sin(data_row * omegas[k] + π/2))` followed by
`np.sign`, with `s q` standing for `sin (π * q)`. -/
def encodeBit (s : ℚ → ℚ) (sh : List ℚ) (row : List ℤ) (R : List ℚ) : ℚ :=
  npSign ((List.zipWith (fun x w => s (x * w + 1 / 2)) sh (omegaRow row R)).prod)

/-- Dot product of two rational vectors. -/
def dotQ (a b : List ℚ) : ℚ := (List.zipWith (fun x y => x * y) a b).sum

/-- sklearn's `PCA.transform` on one row: `(v - mean_) @ components_.T`,
with `comps` the list of principal directions (rows of `components_`). -/
def pcaTransformRow (comps : List (List ℚ)) (pmean : List ℚ) (v : List ℚ) : List ℚ :=
  comps.map (fun comp => dotQ (List.zipWith (fun x y => x - y) v pmean) comp)

/-- Embedding of `generate_code(data, code_length, pca, mn, R, modes)`:
project each row, shift by `mn`, apply the sinusoids of every mode row, and
take signs.  `U` is filled column-by-column in the source, but entry
`U[r, k]` depends only on row `r` of the shifted data, so the matrix is
materialised row-major here with the same entries. -/
def generate_code (s : ℚ → ℚ) (comps : List (List ℚ)) (pmean mn R : List ℚ)
    (modes : List (List ℤ)) (data : List (List ℚ)) : List (List ℚ) :=
  data.map (fun v =>
    modes.map (fun mr =>
      encodeBit s (List.zipWith (fun x y => x - y) (pcaTransformRow comps pmean v) mn) mr R))

/-- Learned state of the projector: principal directions and the training mean. -/
structure ProjState where
  comps : List (List ℚ)
  pmean : List ℚ
deriving DecidableEq, Repr

/-- Column means of a matrix (the `mean_` a PCA fit records). -/
def colMeans (X : List (List ℚ)) : List ℚ :=
  (List.range (ncols X)).map (fun c => (colVals X c).sum / (X.length : ℚ))

/-- Modelled from the spec: sklearn's `PCA(n_components=L).fit` used by
`train` in `sh.py` is library code not under `src/`.  Per §4.1 it computes
the top-`L` principal directions and the global mean of the `N × D` training
matrix, and fails with `DimensionError` if `L > D` or `N < L`; the
eigen-solver itself is the parameter `solve`.  The function is pure: the
input matrix is not mutated. -/
def pcaFit (solve : List (List ℚ) → ℕ → List (List ℚ)) (L : ℕ)
    (X : List (List ℚ)) : Except ShError ProjState :=
  if L > ncols X ∨ X.length < L then .error .dimensionError
  else .ok ⟨solve X L, colMeans X⟩

/-- Partial sums of `max_mode[i] - 1`: the value of the loop variable `m`
after processing the first `k` dimensions. -/
def offs (mms : List ℤ) (k : ℕ) : ℤ := ((mms.take k).map (fun x => x - 1)).sum

/-! Fold lemmas for `listMin` / `listMax`. -/

lemma self_le_foldl_max : ∀ (xs : List ℚ) (x : ℚ), x ≤ xs.foldl max x
  | [], _ => le_refl _
  | y :: ys, x => le_trans (le_max_left x y) (self_le_foldl_max ys (max x y))

lemma mem_le_foldl_max : ∀ (xs : List ℚ) (x y : ℚ), y ∈ xs → y ≤ xs.foldl max x
  | z :: zs, x, y, h => by
    rcases List.mem_cons.mp h with rfl | h
    · exact le_trans (le_max_right x y) (self_le_foldl_max zs (max x y))
    · exact mem_le_foldl_max zs (max x z) y h

lemma foldl_max_mem : ∀ (xs : List ℚ) (x : ℚ), xs.foldl max x ∈ x :: xs
  | [], x => List.mem_singleton.mpr rfl
  | y :: ys, x => by
    have h := foldl_max_mem ys (max x y)
    rcases List.mem_cons.mp h with h | h
    · rcases max_choice x y with hm | hm <;> rw [List.foldl_cons, h, hm]
      · exact List.mem_cons_self _ _
      · exact List.mem_cons_of_mem _ (List.mem_cons_self _ _)
    · exact List.mem_cons_of_mem _ (List.mem_cons_of_mem _ h)

lemma le_listMax {l : List ℚ} {x : ℚ} (hx : x ∈ l) : x ≤ listMax l := by
  match l, hx with
  | y :: ys, hx =>
    rcases List.mem_cons.mp hx with rfl | hx
    · exact self_le_foldl_max ys x
    · exact mem_le_foldl_max ys y x hx

lemma listMax_mem {l : List ℚ} (hl : l ≠ []) : listMax l ∈ l := by
  match l with
  | y :: ys => exact foldl_max_mem ys y

lemma foldl_min_le_self : ∀ (xs : List ℚ) (x : ℚ), xs.foldl min x ≤ x
  | [], _ => le_refl _
  | y :: ys, x => le_trans (foldl_min_le_self ys (min x y)) (min_le_left x y)

lemma foldl_min_le_mem : ∀ (xs : List ℚ) (x y : ℚ), y ∈ xs → xs.foldl min x ≤ y
  | z :: zs, x, y, h => by
    rcases List.mem_cons.mp h with rfl | h
    · exact le_trans (foldl_min_le_self zs (min x y)) (min_le_right x y)
    · exact foldl_min_le_mem zs (min x z) y h

lemma listMin_le {l : List ℚ} {x : ℚ} (hx : x ∈ l) : listMin l ≤ x := by
  match l, hx with
  | y :: ys, hx =>
    rcases List.mem_cons.mp hx with rfl | hx
    · exact foldl_min_le_self ys x
    · exact foldl_min_le_mem ys y x hx

lemma listMin_le_listMax {l : List ℚ} (hl : l ≠ []) : listMin l ≤ listMax l := by
  match l with
  | y :: ys => exact le_trans (listMin_le (List.mem_cons_self y ys)) (le_listMax (List.mem_cons_self y ys))

lemma listMax_pos {l : List ℚ} (hl : l ≠ []) (hp : ∀ x ∈ l, 0 < x) : 0 < listMax l :=
  lt_of_lt_of_le (hp _ (listMax_mem hl)) (le_listMax (listMax_mem hl))

/-! Lemmas about the offset function `offs`. -/

lemma offs_zero (mms : List ℤ) : offs mms 0 = 0 := by simp [offs]

lemma offs_succ_cons (a : ℤ) (l : List ℤ) (k : ℕ) :
    offs (a :: l) (k + 1) = (a - 1) + offs l k := by
  simp [offs, List.take_succ_cons]

lemma getD_eq_getElem {α : Type _} (l : List α) (d : α) {n : ℕ} (hn : n < l.length) :
    l.getD n d = l[n] := by
  rw [List.getD_eq_getElem?_getD, List.getElem?_eq_getElem hn, Option.getD_some]

lemma getD_mem {α : Type _} (l : List α) (d : α) {n : ℕ} (hn : n < l.length) :
    l.getD n d ∈ l := by
  rw [getD_eq_getElem l d hn]
  exact List.getElem_mem hn

lemma offs_nonneg {mms : List ℤ} (h1 : ∀ x ∈ mms, 1 ≤ x) (k : ℕ) : 0 ≤ offs mms k := by
  apply List.sum_nonneg
  intro x hx
  obtain ⟨y, hy, rfl⟩ := List.mem_map.mp hx
  have := h1 y (List.mem_of_mem_take hy)
  omega

lemma offs_succ_getD {mms : List ℤ} {j : ℕ} (hj : j < mms.length) :
    offs mms (j + 1) = offs mms j + (mms.getD j 0 - 1) := by
  induction mms generalizing j with
  | nil => simp at hj
  | cons a l ih =>
    cases j with
    | zero => simp [offs_succ_cons, offs_zero]
    | succ n =>
      rw [offs_succ_cons, offs_succ_cons, ih (by simpa using hj)]
      simp only [List.getD_cons_succ]
      ring

lemma offs_mono {mms : List ℤ} (h1 : ∀ x ∈ mms, 1 ≤ x) {j k : ℕ} (hjk : j ≤ k)
    (hk : k ≤ mms.length) : offs mms j ≤ offs mms k := by
  induction k with
  | zero =>
    have : j = 0 := by omega
    subst this; exact le_refl _
  | succ n ih =>
    rcases Nat.lt_or_ge j (n + 1) with hlt | hge
    · have hn : n < mms.length := by omega
      have h2 : 1 ≤ mms.getD n 0 := h1 _ (getD_mem mms 0 hn)
      calc offs mms j ≤ offs mms n := ih (by omega) (by omega)
        _ ≤ offs mms n + (mms.getD n 0 - 1) := by omega
        _ = offs mms (n + 1) := (offs_succ_getD hn).symm
    · have : j = n + 1 := by omega
      subst this; exact le_refl _

lemma sum_map_sub_one : ∀ l : List ℤ, (l.map (fun x => x - 1)).sum = l.sum - l.length
  | [] => by simp
  | a :: l => by
    simp only [List.map_cons, List.sum_cons, sum_map_sub_one l, List.length_cons]
    push_cast
    ring

lemma offs_length (mms : List ℤ) : offs mms mms.length = mms.sum - mms.length := by
  rw [offs, List.take_length, sum_map_sub_one]

/-! Characterisation of the filling loop. -/

lemma fillLoop_eval_out (mms : List ℤ) : ∀ (i0 : ℕ) (m : ℤ) (e : ℕ → ℕ → ℤ) (r c : ℕ),
    (c < i0 ∨ i0 + mms.length ≤ c) → fillLoop mms i0 m e r c = e r c := by
  induction mms with
  | nil => intro i0 m e r c _; rfl
  | cons a rest ih =>
    intro i0 m e r c hc
    simp only [List.length_cons] at hc
    simp only [fillLoop]
    rw [ih (i0 + 1) _ _ r c (by omega)]
    have hne : c ≠ i0 := by omega
    simp [assignBlock, hne]

lemma fillLoop_eval_in (mms : List ℤ) : ∀ (i0 : ℕ) (m : ℤ) (e : ℕ → ℕ → ℤ) (k r : ℕ),
    k < mms.length →
    fillLoop mms i0 m e r (i0 + k) =
      if m + offs mms k + 1 ≤ (r : ℤ) ∧ (r : ℤ) < m + offs mms k + mms.getD k 0
      then (r : ℤ) - (m + offs mms k) + 1 else e r (i0 + k) := by
  induction mms with
  | nil => intro _ _ _ k _ hk; simp at hk
  | cons a rest ih =>
    intro i0 m e k r hk
    cases k with
    | zero =>
      simp only [fillLoop]
      rw [fillLoop_eval_out rest (i0 + 1) _ _ r (i0 + 0) (by omega)]
      simp only [assignBlock, offs_zero, List.getD_cons_zero]
      by_cases h : m + 1 ≤ (r : ℤ) ∧ (r : ℤ) < m + a
      · rw [if_pos (by exact ⟨rfl, h⟩), if_pos (by omega)]
        omega
      · rw [if_neg (by omega), if_neg (by omega)]
    | succ n =>
      have harith : i0 + (n + 1) = (i0 + 1) + n := by omega
      simp only [fillLoop]
      rw [harith, ih (i0 + 1) (m + a - 1) _ n r (by simpa using hk)]
      rw [offs_succ_cons, List.getD_cons_succ]
      by_cases h : m + a - 1 + offs rest n + 1 ≤ (r : ℤ) ∧
          (r : ℤ) < m + a - 1 + offs rest n + rest.getD n 0
      · rw [if_pos h, if_pos (by omega)]
        ring
      · rw [if_neg h, if_neg (by omega)]
        simp only [assignBlock]
        rw [if_neg (by omega)]

/-! Lemmas about `max_mode` and `n_modes`. -/

lemma R_ne_nil {L : ℕ} {R : List ℚ} (hL : 1 ≤ L) (hlen : R.length = L) : R ≠ [] := by
  intro h
  subst h
  simp at hlen
  omega

lemma max_mode_length (L : ℕ) (R : List ℚ) : (max_mode L R).length = R.length := by
  simp [max_mode]

lemma max_mode_one_le {L : ℕ} {R : List ℚ} (hne : R ≠ []) (hp : ∀ x ∈ R, 0 < x) :
    ∀ y ∈ max_mode L R, 1 ≤ y := by
  intro y hy
  obtain ⟨r, hr, rfl⟩ := List.mem_map.mp hy
  have hmax : 0 < listMax R := listMax_pos hne hp
  have hpos : 0 < ((L : ℚ) + 1) * r / listMax R := by
    apply div_pos _ hmax
    have hL1 : 0 < (L : ℚ) + 1 := by positivity
    exact mul_pos hL1 (hp r hr)
  have := Int.ceil_pos.mpr hpos
  omega

lemma max_mode_getD {L : ℕ} {R : List ℚ} {j : ℕ} (hj : j < R.length) :
    (max_mode L R).getD j 0 = ⌈((L : ℚ) + 1) * R.getD j 0 / listMax R⌉ := by
  have hj' : j < (max_mode L R).length := by rw [max_mode_length]; exact hj
  rw [getD_eq_getElem _ _ hj', getD_eq_getElem _ _ hj]
  simp only [max_mode, List.getElem_map]

lemma exists_max_mode_top {L : ℕ} {R : List ℚ} (hne : R ≠ []) (hp : ∀ x ∈ R, 0 < x) :
    ∃ j, ∃ _ : j < R.length, (max_mode L R).getD j 0 = (L : ℤ) + 1 := by
  have hmax : 0 < listMax R := listMax_pos hne hp
  obtain ⟨j, hj, hget⟩ := List.mem_iff_getElem.mp (listMax_mem hne)
  refine ⟨j, hj, ?_⟩
  rw [max_mode_getD hj, getD_eq_getElem _ _ hj, hget, mul_div_assoc,
    div_self (ne_of_gt hmax), mul_one]
  have hcast : ((L : ℚ) + 1) = (((L : ℤ) + 1 : ℤ) : ℚ) := by push_cast; ring
  rw [hcast, Int.ceil_intCast]

lemma n_modes_eq_offs (L : ℕ) (R : List ℚ) :
    n_modes L R = offs (max_mode L R) (max_mode L R).length + 1 := by
  rw [offs_length, n_modes, max_mode_length]

lemma le_offs_max_mode {L : ℕ} {R : List ℚ} (hne : R ≠ []) (hp : ∀ x ∈ R, 0 < x) :
    (L : ℤ) ≤ offs (max_mode L R) (max_mode L R).length := by
  rw [offs_length]
  obtain ⟨j, hj, hget⟩ := exists_max_mode_top (L := L) hne hp
  have hmem : ((L : ℤ) + 1) ∈ max_mode L R := by
    rw [← hget]
    exact getD_mem _ _ (by rw [max_mode_length]; exact hj)
  have hmem' : (L : ℤ) ∈ (max_mode L R).map (fun x => x - 1) :=
    List.mem_map.mpr ⟨(L : ℤ) + 1, hmem, by ring⟩
  have hnn : ∀ x ∈ (max_mode L R).map (fun x => x - 1), (0 : ℤ) ≤ x := by
    intro x hx
    obtain ⟨y, hy, rfl⟩ := List.mem_map.mp hx
    have := max_mode_one_le hne hp y hy
    omega
  have hle := List.single_le_sum hnn _ hmem'
  rw [sum_map_sub_one] at hle
  exact hle

lemma n_modes_ge {L : ℕ} {R : List ℚ} (hL : 1 ≤ L) (hlen : R.length = L)
    (hp : ∀ x ∈ R, 0 < x) : (L : ℤ) + 1 ≤ n_modes L R := by
  have hne := R_ne_nil hL hlen
  rw [n_modes_eq_offs]
  have := le_offs_max_mode (L := L) hne hp
  omega

/-! Pointwise characterisation of the candidate matrix. -/

lemma modesFun_eq {L : ℕ} {R : List ℚ} (hlen : R.length = L) {c : ℕ} (hc : c < L) (r : ℕ) :
    modesFun L R r c =
      if offs (max_mode L R) c + 1 ≤ (r : ℤ) ∧
          (r : ℤ) < offs (max_mode L R) c + (max_mode L R).getD c 0
      then (r : ℤ) - offs (max_mode L R) c else 0 := by
  unfold modesFun
  have hc' : c < (max_mode L R).length := by rw [max_mode_length, hlen]; exact hc
  have h := fillLoop_eval_in (max_mode L R) 0 0 (fun _ _ => 1) c r hc'
  simp only [Nat.zero_add, zero_add] at h
  rw [h]
  split_ifs with hcond <;> omega

lemma modesFun_zero_row {L : ℕ} {R : List ℚ} (hL : 1 ≤ L) (hlen : R.length = L)
    (hp : ∀ x ∈ R, 0 < x) {c : ℕ} (hc : c < L) : modesFun L R 0 c = 0 := by
  have h0 : 0 ≤ offs (max_mode L R) c := offs_nonneg (max_mode_one_le (R_ne_nil hL hlen) hp) c
  rw [modesFun_eq hlen hc 0, if_neg (by omega)]

lemma candidateRows_length (L : ℕ) (R : List ℚ) :
    (candidateRows L R).length = (n_modes L R).toNat := by
  simp [candidateRows]

lemma candidateRows_getD {L : ℕ} {R : List ℚ} {r : ℕ} (hr : r < (n_modes L R).toNat) :
    (candidateRows L R).getD r [] = (List.range L).map (fun c => modesFun L R r c) := by
  rw [candidateRows, getD_eq_getElem _ _ (by simpa using hr), List.getElem_map,
    List.getElem_range]

lemma candidateRows_row_length {L : ℕ} {R : List ℚ} {row : List ℤ}
    (hrow : row ∈ candidateRows L R) : row.length = L := by
  obtain ⟨r, hr, rfl⟩ := List.mem_map.mp hrow
  simp

lemma candidateRows_zero {L : ℕ} {R : List ℚ} (hL : 1 ≤ L) (hlen : R.length = L)
    (hp : ∀ x ∈ R, 0 < x) :
    (candidateRows L R).getD 0 [] = List.replicate L 0 := by
  have hn : 0 < (n_modes L R).toNat := by
    have := n_modes_ge hL hlen hp
    omega
  rw [candidateRows_getD hn]
  have hall : ∀ b ∈ (List.range L).map (fun c => modesFun L R 0 c), b = 0 := by
    intro b hb
    obtain ⟨c, hc, rfl⟩ := List.mem_map.mp hb
    exact modesFun_zero_row hL hlen hp (List.mem_range.mp hc)
  have h2 := List.eq_replicate_of_mem hall
  rwa [List.length_map, List.length_range] at h2

lemma exists_block (mms : List ℤ) (h1 : ∀ x ∈ mms, 1 ≤ x) :
    ∀ r : ℤ, 0 < r → r ≤ offs mms mms.length →
    ∃ i, ∃ _ : i < mms.length, offs mms i < r ∧ r ≤ offs mms i + (mms.getD i 0 - 1) := by
  induction mms with
  | nil =>
    intro r h0 hr
    simp [offs] at hr
    omega
  | cons a rest ih =>
    intro r h0 hr
    by_cases hcase : r ≤ a - 1
    · refine ⟨0, by simp, ?_, ?_⟩
      · rw [offs_zero]; omega
      · rw [offs_zero, List.getD_cons_zero]; omega
    · have h1' : ∀ x ∈ rest, 1 ≤ x := fun x hx => h1 x (List.mem_cons_of_mem _ hx)
      have hr' : r - (a - 1) ≤ offs rest rest.length := by
        have hco : offs (a :: rest) (rest.length + 1) = (a - 1) + offs rest rest.length :=
          offs_succ_cons a rest rest.length
        rw [List.length_cons] at hr
        omega
      obtain ⟨i, hi, hlo, hhi⟩ := ih h1' (r - (a - 1)) (by omega) hr'
      refine ⟨i + 1, by simp; omega, ?_, ?_⟩
      · rw [offs_succ_cons]; omega
      · rw [offs_succ_cons, List.getD_cons_succ]; omega

lemma block_not_other {mms : List ℤ} (h1 : ∀ x ∈ mms, 1 ≤ x) {i c : ℕ} (hi : i < mms.length)
    (hc : c < mms.length) (hne : c ≠ i) {r : ℤ}
    (hlo : offs mms i < r) (hhi : r ≤ offs mms i + (mms.getD i 0 - 1)) :
    ¬(offs mms c + 1 ≤ r ∧ r < offs mms c + mms.getD c 0) := by
  rintro ⟨h3, h4⟩
  rcases Nat.lt_or_ge c i with hci | hci
  · have hsucc : offs mms (c + 1) = offs mms c + (mms.getD c 0 - 1) := offs_succ_getD hc
    have hmono : offs mms (c + 1) ≤ offs mms i := offs_mono h1 (by omega) (by omega)
    omega
  · have hic : i < c := by omega
    have hsucc : offs mms (i + 1) = offs mms i + (mms.getD i 0 - 1) := offs_succ_getD hi
    have hmono : offs mms (i + 1) ≤ offs mms c := offs_mono h1 (by omega) (by omega)
    omega

lemma candidateRow_cases {L : ℕ} {R : List ℚ} (hL : 1 ≤ L) (hlen : R.length = L)
    (hp : ∀ x ∈ R, 0 < x) {r : ℕ} (hr : r < (n_modes L R).toNat) :
    (candidateRows L R).getD r [] = List.replicate L 0 ∨
    ∃ i, i < L ∧ ∃ v : ℤ, 1 ≤ v ∧ v ≤ (max_mode L R).getD i 0 - 1 ∧
      (candidateRows L R).getD r [] = singleAxis L i v := by
  rcases Nat.eq_zero_or_pos r with rfl | hr0
  · left
    exact candidateRows_zero hL hlen hp
  · right
    have hne := R_ne_nil hL hlen
    have h1 := max_mode_one_le (L := L) hne hp
    have heq := n_modes_eq_offs L R
    have hge := n_modes_ge hL hlen hp
    have hrle : (r : ℤ) ≤ offs (max_mode L R) (max_mode L R).length := by omega
    obtain ⟨i, hi, hlo, hhi⟩ := exists_block _ h1 r (by omega) hrle
    have hiL : i < L := by rw [max_mode_length, hlen] at hi; exact hi
    refine ⟨i, hiL, (r : ℤ) - offs (max_mode L R) i, by omega, by omega, ?_⟩
    rw [candidateRows_getD hr, singleAxis]
    apply List.map_congr_left
    intro c hc
    have hcL := List.mem_range.mp hc
    by_cases hci : c = i
    · subst hci
      rw [modesFun_eq hlen hcL r, if_pos ⟨by omega, by omega⟩, if_pos rfl]
    · have hcm : c < (max_mode L R).length := by rw [max_mode_length, hlen]; exact hcL
      rw [modesFun_eq hlen hcL r, if_neg (block_not_other h1 hi hcm hci hlo hhi),
        if_neg hci]

lemma singleAxis_mem {L : ℕ} {R : List ℚ} (hL : 1 ≤ L) (hlen : R.length = L)
    (hp : ∀ x ∈ R, 0 < x) {i : ℕ} (hiL : i < L) {v : ℤ} (hv1 : 1 ≤ v)
    (hv2 : v ≤ (max_mode L R).getD i 0 - 1) : singleAxis L i v ∈ candidateRows L R := by
  have hne := R_ne_nil hL hlen
  have h1 := max_mode_one_le (L := L) hne hp
  have hi : i < (max_mode L R).length := by rw [max_mode_length, hlen]; exact hiL
  have hoi : 0 ≤ offs (max_mode L R) i := offs_nonneg h1 i
  have hsucc := offs_succ_getD hi
  have hmono : offs (max_mode L R) (i + 1) ≤ offs (max_mode L R) (max_mode L R).length :=
    offs_mono h1 (Nat.succ_le_of_lt hi) (le_refl _)
  have heq := n_modes_eq_offs L R
  have hrn : (offs (max_mode L R) i + v).toNat < (n_modes L R).toNat := by omega
  have hrow : (candidateRows L R).getD (offs (max_mode L R) i + v).toNat [] =
      singleAxis L i v := by
    rw [candidateRows_getD hrn, singleAxis]
    apply List.map_congr_left
    intro c hc
    have hcL := List.mem_range.mp hc
    by_cases hci : c = i
    · subst hci
      rw [modesFun_eq hlen hcL, if_pos ⟨by omega, by omega⟩, if_pos rfl]
      omega
    · have hcm : c < (max_mode L R).length := by rw [max_mode_length, hlen]; exact hcL
      rw [modesFun_eq hlen hcL, if_neg (block_not_other h1 hi hcm hci (by omega) (by omega)),
        if_neg hci]
  rw [← hrow]
  exact getD_mem _ _ (by rw [candidateRows_length]; exact hrn)

/-! Eigenvalue lemmas. -/

lemma eigKey_terms_nonneg (row : List ℤ) (R : List ℚ) :
    ∀ x ∈ List.zipWith (fun (v : ℤ) (r : ℚ) => ((v : ℚ) / r) ^ 2) row R, 0 ≤ x := by
  intro x hx
  obtain ⟨n, hn, hxe⟩ := List.mem_iff_getElem.mp hx
  rw [List.getElem_zipWith] at hxe
  rw [← hxe]
  positivity

lemma eigKey_nonneg (row : List ℤ) (R : List ℚ) : 0 ≤ eigKey row R :=
  List.sum_nonneg (eigKey_terms_nonneg row R)

lemma eigKey_replicate (L : ℕ) (R : List ℚ) : eigKey (List.replicate L 0) R = 0 := by
  induction L generalizing R with
  | zero => simp [eigKey]
  | succ n ih =>
    cases R with
    | nil => simp [eigKey]
    | cons r rs =>
      have h := ih rs
      rw [eigKey] at h ⊢
      rw [List.replicate_succ, List.zipWith_cons_cons, List.sum_cons, h]
      norm_num

lemma singleAxis_length (L i : ℕ) (v : ℤ) : (singleAxis L i v).length = L := by
  simp [singleAxis]

lemma singleAxis_getD {L i : ℕ} (v : ℤ) {c : ℕ} (hc : c < L) :
    (singleAxis L i v).getD c 0 = if c = i then v else 0 := by
  have hlen : c < (singleAxis L i v).length := by rw [singleAxis_length]; exact hc
  rw [getD_eq_getElem _ _ hlen]
  simp [singleAxis]

lemma eigKey_singleAxis_pos {L : ℕ} {R : List ℚ} {i : ℕ} (hiL : i < L) (hiR : i < R.length)
    (hR : 0 < R.getD i 0) {v : ℤ} (hv : 1 ≤ v) : 0 < eigKey (singleAxis L i v) R := by
  have hz : i < (List.zipWith (fun (v : ℤ) (r : ℚ) => ((v : ℚ) / r) ^ 2)
      (singleAxis L i v) R).length := by
    rw [List.length_zipWith, singleAxis_length]
    omega
  have hil : i < (singleAxis L i v).length := by rw [singleAxis_length]; exact hiL
  have hsv : (singleAxis L i v)[i] = v := by
    simp [singleAxis]
  have helem : (List.zipWith (fun (v : ℤ) (r : ℚ) => ((v : ℚ) / r) ^ 2)
      (singleAxis L i v) R)[i] = ((v : ℚ) / R[i]) ^ 2 := by
    rw [List.getElem_zipWith, hsv]
  have hRi : (0 : ℚ) < R[i] := by
    rw [getD_eq_getElem _ _ hiR] at hR
    exact hR
  have hv' : (0 : ℚ) < (v : ℚ) := by exact_mod_cast (by omega : (0 : ℤ) < v)
  have hpos : 0 < ((v : ℚ) / R[i]) ^ 2 := pow_pos (div_pos hv' hRi) 2
  have hmem : ((v : ℚ) / R[i]) ^ 2 ∈ List.zipWith (fun (v : ℤ) (r : ℚ) => ((v : ℚ) / r) ^ 2)
      (singleAxis L i v) R := by
    rw [← helem]
    exact List.getElem_mem hz
  exact lt_of_lt_of_le hpos (List.single_le_sum (eigKey_terms_nonneg _ _) _ hmem)

lemma zipWith_pi_sum (row : List ℤ) : ∀ R : List ℚ,
    (List.zipWith (fun (v : ℤ) (r : ℚ) => ((v : ℝ) * Real.pi / (r : ℝ)) ^ 2) row R).sum =
      Real.pi ^ 2 *
        ((List.zipWith (fun (v : ℤ) (r : ℚ) => ((v : ℚ) / r) ^ 2) row R).sum : ℚ) := by
  induction row with
  | nil => intro R; simp
  | cons v vs ih =>
    intro R
    cases R with
    | nil => simp
    | cons r rs =>
      simp only [List.zipWith_cons_cons, List.sum_cons]
      rw [ih rs]
      push_cast
      ring

lemma eig_val_eq (row : List ℤ) (R : List ℚ) :
    eig_val row R = -(Real.pi ^ 2 * (eigKey row R : ℝ)) := by
  rw [eig_val, eigKey, zipWith_pi_sum]

lemma abs_eig_val (row : List ℤ) (R : List ℚ) :
    |eig_val row R| = Real.pi ^ 2 * (eigKey row R : ℝ) := by
  rw [eig_val_eq, abs_neg, abs_of_nonneg]
  have h := eigKey_nonneg row R
  have : (0 : ℝ) ≤ (eigKey row R : ℚ) := by exact_mod_cast h
  positivity

lemma eigLe_abs {R : List ℚ} {a b : List ℤ} (h : eigLe R a b) :
    |eig_val a R| ≤ |eig_val b R| := by
  rw [abs_eig_val, abs_eig_val]
  have h' : (eigKey a R : ℝ) ≤ (eigKey b R : ℝ) := by exact_mod_cast h
  exact mul_le_mul_of_nonneg_left h' (sq_nonneg _)

/-! Structure of the sorted candidate list. -/

lemma sortedCandidates_perm (L : ℕ) (R : List ℚ) :
    (sortedCandidates L R).Perm (candidateRows L R) :=
  List.perm_insertionSort _ _

lemma sortedCandidates_sorted (L : ℕ) (R : List ℚ) :
    List.Sorted (eigLe R) (sortedCandidates L R) :=
  List.sorted_insertionSort _ _

lemma sortedCandidates_length (L : ℕ) (R : List ℚ) :
    (sortedCandidates L R).length = (n_modes L R).toNat := by
  rw [(sortedCandidates_perm L R).length_eq, candidateRows_length]

lemma mem_sortedCandidates {L : ℕ} {R : List ℚ} {row : List ℤ} :
    row ∈ sortedCandidates L R ↔ row ∈ candidateRows L R :=
  (sortedCandidates_perm L R).mem_iff

lemma replicate_mem_candidateRows {L : ℕ} {R : List ℚ} (hL : 1 ≤ L) (hlen : R.length = L)
    (hp : ∀ x ∈ R, 0 < x) : List.replicate L 0 ∈ candidateRows L R := by
  rw [← candidateRows_zero hL hlen hp]
  refine getD_mem _ _ ?_
  rw [candidateRows_length]
  have := n_modes_ge hL hlen hp
  omega

lemma candidateRow_pos {L : ℕ} {R : List ℚ} (hL : 1 ≤ L) (hlen : R.length = L)
    (hp : ∀ x ∈ R, 0 < x) {r : ℕ} (hr0 : 1 ≤ r) (hr : r < (n_modes L R).toNat) :
    ∃ i, i < L ∧ ∃ v : ℤ, 1 ≤ v ∧ v ≤ (max_mode L R).getD i 0 - 1 ∧
      (candidateRows L R).getD r [] = singleAxis L i v ∧
      (r : ℤ) = offs (max_mode L R) i + v := by
  have hne := R_ne_nil hL hlen
  have h1 := max_mode_one_le (L := L) hne hp
  have heq := n_modes_eq_offs L R
  have hge := n_modes_ge hL hlen hp
  have hrle : (r : ℤ) ≤ offs (max_mode L R) (max_mode L R).length := by omega
  obtain ⟨i, hi, hlo, hhi⟩ := exists_block _ h1 r (by omega) hrle
  have hiL : i < L := by rw [max_mode_length, hlen] at hi; exact hi
  refine ⟨i, hiL, (r : ℤ) - offs (max_mode L R) i, by omega, by omega, ?_, by omega⟩
  rw [candidateRows_getD hr, singleAxis]
  apply List.map_congr_left
  intro c hc
  have hcL := List.mem_range.mp hc
  by_cases hci : c = i
  · subst hci
    rw [modesFun_eq hlen hcL r, if_pos ⟨by omega, by omega⟩, if_pos rfl]
  · have hcm : c < (max_mode L R).length := by rw [max_mode_length, hlen]; exact hcL
    rw [modesFun_eq hlen hcL r, if_neg (block_not_other h1 hi hcm hci hlo hhi), if_neg hci]

lemma mem_candidateRows_cases {L : ℕ} {R : List ℚ} (hL : 1 ≤ L) (hlen : R.length = L)
    (hp : ∀ x ∈ R, 0 < x) {row : List ℤ} (hrow : row ∈ candidateRows L R) :
    row = List.replicate L 0 ∨
    ∃ i, i < L ∧ ∃ v : ℤ, 1 ≤ v ∧ v ≤ (max_mode L R).getD i 0 - 1 ∧
      row = singleAxis L i v := by
  obtain ⟨r, hr, hget⟩ := List.mem_iff_getElem.mp hrow
  have hr' : r < (n_modes L R).toNat := by rw [← candidateRows_length]; exact hr
  have hgetD : (candidateRows L R).getD r [] = row := by
    rw [getD_eq_getElem _ _ hr, hget]
  rcases Nat.eq_zero_or_pos r with rfl | hr0
  · left
    rw [← hgetD, candidateRows_zero hL hlen hp]
  · obtain ⟨i, hiL, v, hv1, hv2, hS, _⟩ := candidateRow_pos hL hlen hp hr0 hr'
    exact Or.inr ⟨i, hiL, v, hv1, hv2, by rw [← hgetD, hS]⟩

lemma replicate_getD_zero {L c : ℕ} : (List.replicate L (0 : ℤ)).getD c 0 = 0 := by
  rw [List.getD_eq_getElem?_getD, List.getElem?_replicate]
  split <;> rfl

lemma replicate_ne_singleAxis {L i : ℕ} {v : ℤ} (hiL : i < L) (hv : v ≠ 0) :
    List.replicate L (0 : ℤ) ≠ singleAxis L i v := by
  intro h
  have h2 := congrArg (fun l => l.getD i 0) h
  simp only at h2
  rw [replicate_getD_zero, singleAxis_getD v hiL, if_pos rfl] at h2
  exact hv h2.symm

lemma singleAxis_inj {L i i' : ℕ} {v v' : ℤ} (hiL : i < L) (hv : v ≠ 0)
    (h : singleAxis L i v = singleAxis L i' v') : i = i' ∧ v = v' := by
  have h2 := congrArg (fun l => l.getD i 0) h
  simp only at h2
  rw [singleAxis_getD v hiL, if_pos rfl, singleAxis_getD v' hiL] at h2
  by_cases hii : i = i'
  · subst hii
    rw [if_pos rfl] at h2
    exact ⟨rfl, h2⟩
  · rw [if_neg hii] at h2
    exact absurd h2 hv

lemma candidateRows_nodup {L : ℕ} {R : List ℚ} (hL : 1 ≤ L) (hlen : R.length = L)
    (hp : ∀ x ∈ R, 0 < x) : (candidateRows L R).Nodup := by
  rw [candidateRows]
  apply List.Nodup.map_on ?_ (List.nodup_range _)
  intro r hr r' hr' heq
  have hr1 : r < (n_modes L R).toNat := List.mem_range.mp hr
  have hr1' : r' < (n_modes L R).toNat := List.mem_range.mp hr'
  have hgd : (candidateRows L R).getD r [] = (List.range L).map (fun c => modesFun L R r c) :=
    candidateRows_getD hr1
  have hgd' : (candidateRows L R).getD r' [] =
      (List.range L).map (fun c => modesFun L R r' c) := candidateRows_getD hr1'
  rcases Nat.eq_zero_or_pos r with rfl | hr0 <;> rcases Nat.eq_zero_or_pos r' with rfl | hr0'
  · rfl
  · obtain ⟨i, hiL, v, hv1, _, hS, _⟩ := candidateRow_pos hL hlen hp hr0' hr1'
    have hz := candidateRows_zero hL hlen hp
    rw [hgd] at hz
    rw [hgd'] at hS
    exact absurd (hz ▸ heq ▸ hS) (replicate_ne_singleAxis hiL (by omega))
  · obtain ⟨i, hiL, v, hv1, _, hS, _⟩ := candidateRow_pos hL hlen hp hr0 hr1
    have hz := candidateRows_zero hL hlen hp
    rw [hgd'] at hz
    rw [hgd] at hS
    exact absurd (hz ▸ heq.symm ▸ hS) (replicate_ne_singleAxis hiL (by omega))
  · obtain ⟨i, hiL, v, hv1, _, hS, hoff⟩ := candidateRow_pos hL hlen hp hr0 hr1
    obtain ⟨i', hi'L, v', hv1', _, hS', hoff'⟩ := candidateRow_pos hL hlen hp hr0' hr1'
    rw [hgd] at hS
    rw [hgd'] at hS'
    have hSS : singleAxis L i v = singleAxis L i' v' := by rw [← hS, ← hS', heq]
    obtain ⟨rfl, rfl⟩ := singleAxis_inj hiL (by omega) hSS
    omega

lemma sortedCandidates_head {L : ℕ} {R : List ℚ} (hL : 1 ≤ L) (hlen : R.length = L)
    (hp : ∀ x ∈ R, 0 < x) :
    (sortedCandidates L R).head? = some (List.replicate L 0) := by
  have hlen0 : 0 < (sortedCandidates L R).length := by
    rw [sortedCandidates_length]
    have := n_modes_ge hL hlen hp
    omega
  obtain ⟨h, t, hht⟩ : ∃ h t, sortedCandidates L R = h :: t := by
    cases hso : sortedCandidates L R with
    | nil => rw [hso] at hlen0; simp at hlen0
    | cons a b => exact ⟨a, b, rfl⟩
  have hmem_h : h ∈ candidateRows L R := by
    rw [← mem_sortedCandidates, hht]
    exact List.mem_cons_self _ _
  have hz_mem : List.replicate L 0 ∈ sortedCandidates L R :=
    mem_sortedCandidates.mpr (replicate_mem_candidateRows hL hlen hp)
  rw [hht]
  simp only [List.head?_cons, Option.some.injEq]
  rcases mem_candidateRows_cases hL hlen hp hmem_h with hzero | ⟨i, hiL, v, hv1, _, hsingle⟩
  · exact hzero
  · exfalso
    have hkey_pos : 0 < eigKey h R := by
      rw [hsingle]
      have hiR : i < R.length := by rw [hlen]; exact hiL
      exact eigKey_singleAxis_pos hiL hiR (hp _ (getD_mem R 0 hiR)) hv1
    rw [hht] at hz_mem
    rcases List.mem_cons.mp hz_mem with hzh | hzt
    · rw [← hzh, eigKey_replicate] at hkey_pos
      exact lt_irrefl _ hkey_pos
    · have hsorted := sortedCandidates_sorted L R
      rw [hht] at hsorted
      have hle : eigKey h R ≤ eigKey (List.replicate L 0) R :=
        (List.sorted_cons.mp hsorted).1 _ hzt
      rw [eigKey_replicate] at hle
      linarith

/-! Lemmas about the selected table. -/

lemma buildModeTable_ok {L : ℕ} {R : List ℚ} (hL : 1 ≤ L) (hlen : R.length = L)
    (hp : ∀ x ∈ R, 0 < x) :
    buildModeTable L R = .ok (((sortedCandidates L R).drop 1).take L) := by
  rw [buildModeTable, if_neg]
  have := n_modes_ge hL hlen hp
  omega

lemma tableRows_length {L : ℕ} {R : List ℚ} (hL : 1 ≤ L) (hlen : R.length = L)
    (hp : ∀ x ∈ R, 0 < x) : (((sortedCandidates L R).drop 1).take L).length = L := by
  rw [List.length_take, List.length_drop, sortedCandidates_length]
  have := n_modes_ge hL hlen hp
  omega

lemma tableRows_mem_candidates {L : ℕ} {R : List ℚ} {row : List ℤ}
    (hmem : row ∈ ((sortedCandidates L R).drop 1).take L) : row ∈ candidateRows L R :=
  mem_sortedCandidates.mp (List.mem_of_mem_drop (List.mem_of_mem_take hmem))

lemma tableRows_ne_replicate {L : ℕ} {R : List ℚ} (hL : 1 ≤ L) (hlen : R.length = L)
    (hp : ∀ x ∈ R, 0 < x) {row : List ℤ}
    (hmem : row ∈ ((sortedCandidates L R).drop 1).take L) : row ≠ List.replicate L 0 := by
  intro hz
  have hnodup : (sortedCandidates L R).Nodup :=
    (sortedCandidates_perm L R).nodup_iff.mpr (candidateRows_nodup hL hlen hp)
  have hhead := sortedCandidates_head hL hlen hp
  obtain ⟨h, t, hht⟩ : ∃ h t, sortedCandidates L R = h :: t := by
    cases hso : sortedCandidates L R with
    | nil => rw [hso] at hhead; simp at hhead
    | cons a b => exact ⟨a, b, rfl⟩
  rw [hht] at hhead
  simp only [List.head?_cons, Option.some.injEq] at hhead
  rw [hht] at hnodup hmem
  simp only [List.drop_one, List.tail_cons] at hmem
  have hrow_t : row ∈ t := List.mem_of_mem_take hmem
  rw [hz, ← hhead] at hrow_t
  exact (List.nodup_cons.mp hnodup).1 hrow_t

lemma tableRows_singleAxis {L : ℕ} {R : List ℚ} (hL : 1 ≤ L) (hlen : R.length = L)
    (hp : ∀ x ∈ R, 0 < x) {row : List ℤ}
    (hmem : row ∈ ((sortedCandidates L R).drop 1).take L) :
    ∃ i, i < L ∧ ∃ v : ℤ, 1 ≤ v ∧ v ≤ (max_mode L R).getD i 0 - 1 ∧ row = singleAxis L i v := by
  rcases mem_candidateRows_cases hL hlen hp (tableRows_mem_candidates hmem) with hz | hs
  · exact absurd hz (tableRows_ne_replicate hL hlen hp hmem)
  · exact hs

lemma tableRows_sorted {L : ℕ} {R : List ℚ} :
    (((sortedCandidates L R).drop 1).take L).Pairwise
      (fun a b => |eig_val a R| ≤ |eig_val b R|) := by
  have hs : (((sortedCandidates L R).drop 1).take L).Pairwise (eigLe R) := by
    apply List.Pairwise.sublist _ (sortedCandidates_sorted L R)
    exact ((List.take_sublist _ _).trans (List.drop_sublist _ _))
  exact hs.imp (fun h => eigLe_abs h)

/-! Encoding lemmas. -/

lemma npSign_cases (x : ℚ) : npSign x = -1 ∨ npSign x = 0 ∨ npSign x = 1 := by
  rw [npSign]
  split_ifs <;> simp

lemma zipWith_getD {α β γ : Type _} (f : α → β → γ) (a : List α) (b : List β) {j : ℕ}
    (hj : j < a.length) (hj' : j < b.length) (da : α) (db : β) (dc : γ) :
    (List.zipWith f a b).getD j dc = f (a.getD j da) (b.getD j db) := by
  have hz : j < (List.zipWith f a b).length := by rw [List.length_zipWith]; omega
  rw [getD_eq_getElem _ _ hz, List.getElem_zipWith, getD_eq_getElem _ _ hj,
    getD_eq_getElem _ _ hj']

lemma generate_code_getD {s : ℚ → ℚ} {comps : List (List ℚ)} {pmean mn R : List ℚ}
    {modes : List (List ℤ)} {data : List (List ℚ)} {r : ℕ} (hr : r < data.length) :
    (generate_code s comps pmean mn R modes data).getD r [] =
      modes.map (fun mr =>
        encodeBit s
          (List.zipWith (fun x y => x - y) (pcaTransformRow comps pmean (data.getD r [])) mn)
          mr R) := by
  rw [generate_code, getD_eq_getElem _ _ (by rw [List.length_map]; exact hr),
    List.getElem_map, getD_eq_getElem _ _ hr]

lemma map_getD_encodeBit {s : ℚ → ℚ} {sh : List ℚ} {R : List ℚ} {modes : List (List ℤ)}
    {k : ℕ} (hk : k < modes.length) :
    (modes.map (fun mr => encodeBit s sh mr R)).getD k 0 =
      encodeBit s sh (modes.getD k []) R := by
  rw [getD_eq_getElem _ _ (by rw [List.length_map]; exact hk), List.getElem_map,
    getD_eq_getElem _ _ hk]

lemma prod_eq_getD : ∀ (l : List ℚ) (i : ℕ), i < l.length →
    (∀ j, j < l.length → j ≠ i → l.getD j 1 = 1) → l.prod = l.getD i 1 := by
  intro l
  induction l with
  | nil => intro i hi _; simp at hi
  | cons x xs ih =>
    intro i hi hj
    cases i with
    | zero =>
      rw [List.prod_cons, List.getD_cons_zero]
      have hall : ∀ y ∈ xs, y = 1 := by
        intro y hy
        obtain ⟨n, hn, rfl⟩ := List.mem_iff_getElem.mp hy
        have := hj (n + 1) (by simp; omega) (by omega)
        rw [List.getD_cons_succ, getD_eq_getElem _ _ hn] at this
        exact this
      rw [List.prod_eq_one hall, mul_one]
    | succ n =>
      rw [List.prod_cons, List.getD_cons_succ]
      have hx : x = 1 := by
        have := hj 0 (by simp) (by omega)
        rwa [List.getD_cons_zero] at this
      rw [hx, one_mul]
      apply ih n (by simpa using hi)
      intro j hjl hjn
      have := hj (j + 1) (by simp; omega) (by omega)
      rwa [List.getD_cons_succ] at this

lemma omegaRow_getD {row : List ℤ} {R : List ℚ} {j : ℕ} (hj : j < row.length)
    (hj' : j < R.length) :
    (omegaRow row R).getD j 0 = (row.getD j 0 : ℚ) / R.getD j 0 := by
  rw [omegaRow, zipWith_getD _ _ _ hj hj' 0 0 0]

lemma encodeBit_singleAxis {s : ℚ → ℚ} (hs : s (1 / 2) = 1) {sh R : List ℚ} {L i : ℕ}
    {v : ℤ} (hiL : i < L) (hshL : sh.length = L) (hRL : R.length = L) :
    encodeBit s sh (singleAxis L i v) R =
      npSign (s (sh.getD i 0 * ((v : ℚ) / R.getD i 0) + 1 / 2)) := by
  rw [encodeBit]
  congr 1
  have hom_len : (omegaRow (singleAxis L i v) R).length = L := by
    rw [omegaRow, List.length_zipWith, singleAxis_length, hRL]
    omega
  have hys_len : (List.zipWith (fun x w => s (x * w + 1 / 2)) sh
      (omegaRow (singleAxis L i v) R)).length = L := by
    rw [List.length_zipWith, hshL, hom_len]
    omega
  have hys_getD : ∀ j, j < L →
      (List.zipWith (fun x w => s (x * w + 1 / 2)) sh
        (omegaRow (singleAxis L i v) R)).getD j 1 =
        s (sh.getD j 0 * ((if j = i then v else 0 : ℤ) : ℚ) / R.getD j 0 + 1 / 2) := by
    intro j hjL
    rw [zipWith_getD _ _ _ (by omega) (by omega) 0 0 1,
      omegaRow_getD (by rw [singleAxis_length]; omega) (by omega), singleAxis_getD _ hjL,
      mul_div_assoc]
  rw [prod_eq_getD _ i (by omega) ?side]
  case side =>
    intro j hj hne
    rw [hys_len] at hj
    rw [hys_getD j hj, if_neg hne]
    norm_num
    exact hs
  rw [hys_getD i hiL, if_pos rfl, mul_div_assoc]

lemma map_singleton_flatten {α β : Type _} (f : α → β) :
    ∀ l : List α, (l.map (fun v => [f v])).flatten = l.map f
  | [] => rfl
  | x :: xs => by
    rw [List.map_cons, List.flatten_cons, map_singleton_flatten f xs]
    rfl

lemma generate_code_flatten (s : ℚ → ℚ) (comps : List (List ℚ)) (pmean mn R : List ℚ)
    (modes : List (List ℤ)) (data : List (List ℚ)) :
    generate_code s comps pmean mn R modes data =
      (data.map (fun v => generate_code s comps pmean mn R modes [v])).flatten := by
  simp only [generate_code, List.map_cons, List.map_nil]
  exact (map_singleton_flatten _ data).symm

/-! Bounds lemmas (epsilon padding). -/

lemma eps_pos : 0 < eps := by norm_num [eps]

lemma mnOf_length (X : List (List ℚ)) : (mnOf X).length = ncols X := by simp [mnOf]

lemma mxOf_length (X : List (List ℚ)) : (mxOf X).length = ncols X := by simp [mxOf]

lemma ROf_length (X : List (List ℚ)) : (ROf X).length = ncols X := by
  rw [ROf, List.length_zipWith, mnOf_length, mxOf_length]
  omega

lemma mnOf_getD {X : List (List ℚ)} {c : ℕ} (hc : c < ncols X) :
    (mnOf X).getD c 0 = listMin (colVals X c) - eps := by
  rw [mnOf, getD_eq_getElem _ _ (by simpa using hc), List.getElem_map, List.getElem_range]

lemma mxOf_getD {X : List (List ℚ)} {c : ℕ} (hc : c < ncols X) :
    (mxOf X).getD c 0 = listMax (colVals X c) + eps := by
  rw [mxOf, getD_eq_getElem _ _ (by simpa using hc), List.getElem_map, List.getElem_range]

lemma ROf_getD {X : List (List ℚ)} {c : ℕ} (hc : c < ncols X) :
    (ROf X).getD c 0 = (mxOf X).getD c 0 - (mnOf X).getD c 0 := by
  rw [ROf, zipWith_getD _ _ _ (by rw [mxOf_length]; exact hc) (by rw [mnOf_length]; exact hc)
    0 0 0]

lemma colVals_mem {X : List (List ℚ)} {row : List ℚ} (hrow : row ∈ X) (c : ℕ) :
    row.getD c 0 ∈ colVals X c :=
  List.mem_map.mpr ⟨row, hrow, rfl⟩

lemma colVals_ne_nil {X : List (List ℚ)} (hne : X ≠ []) (c : ℕ) : colVals X c ≠ [] := by
  rw [colVals]
  simpa using hne

/-! Bridge to the real sine: the code's `sin(x * omega + π/2)` with
`omega = w * π` is `sin (π * (x * w + 1/2))`, and `sin (π * (1/2)) = 1`. -/

lemma sin_pi_factor (x w : ℝ) :
    Real.sin (x * (w * Real.pi) + Real.pi / 2) = Real.sin (Real.pi * (x * w + 1 / 2)) := by
  congr 1
  ring

lemma sin_pi_half : Real.sin (Real.pi * (1 / 2 : ℝ)) = 1 := by
  rw [mul_one_div, Real.sin_pi_div_two]

/-! Claim theorems. -/

/-- C1: for every code length `L ≥ 1` and strictly positive projected
per-dimension ranges, the mode-table construction in `train` succeeds and
returns exactly `L` rows, each of length `L` with non-negative integer
entries, ordered by ascending eigenvalue magnitude (lowest frequency first);
the selection keeps exactly the `L` rows following the first sorted
candidate, and that dropped first candidate is always the all-zero constant
row, whose eigenvalue is `0`. -/
theorem C1_buildModeTable_shape (L : ℕ) (R : List ℚ) (hL : 1 ≤ L) (hlen : R.length = L)
    (hp : ∀ x ∈ R, 0 < x) :
    ∃ T, buildModeTable L R = .ok T ∧
      T.length = L ∧
      (∀ row ∈ T, row.length = L ∧ ∀ v ∈ row, 0 ≤ v) ∧
      T.Pairwise (fun a b => |eig_val a R| ≤ |eig_val b R|) ∧
      T = ((sortedCandidates L R).drop 1).take L ∧
      (sortedCandidates L R).head? = some (List.replicate L 0) ∧
      eig_val (List.replicate L 0) R = 0 := by
  refine ⟨_, buildModeTable_ok hL hlen hp, tableRows_length hL hlen hp, ?_,
    tableRows_sorted, rfl, sortedCandidates_head hL hlen hp, ?_⟩
  · intro row hrow
    refine ⟨candidateRows_row_length (tableRows_mem_candidates hrow), ?_⟩
    intro v hv
    rcases mem_candidateRows_cases hL hlen hp (tableRows_mem_candidates hrow) with
      hz | ⟨i, hiL, w, hw1, _, hS⟩
    · rw [hz] at hv
      have := List.eq_of_mem_replicate hv
      omega
    · rw [hS, singleAxis] at hv
      obtain ⟨c, _, hveq⟩ := List.mem_map.mp hv
      split_ifs at hveq <;> omega
  · rw [eig_val_eq, eigKey_replicate]
    simp

theorem C1_witness :
    ∃ T, buildModeTable 2 [(1 : ℚ), 2] = .ok T ∧
      T.length = 2 ∧
      (∀ row ∈ T, row.length = 2 ∧ ∀ v ∈ row, 0 ≤ v) ∧
      T.Pairwise (fun a b => |eig_val a [(1 : ℚ), 2]| ≤ |eig_val b [(1 : ℚ), 2]|) ∧
      T = ((sortedCandidates 2 [(1 : ℚ), 2]).drop 1).take 2 ∧
      (sortedCandidates 2 [(1 : ℚ), 2]).head? = some (List.replicate 2 0) ∧
      eig_val (List.replicate 2 0) [(1 : ℚ), 2] = 0 :=
  C1_buildModeTable_shape 2 [(1 : ℚ), 2] (by decide) (by decide) (by decide)

/-- C2: the `k`-th output bit of `generate_code` is the sign of the product,
over all dimensions `j`, of the sinusoid evaluated at
`(v_j - mn_j) * mode_kj * (π / R_j) + π/2` (written through `s q = sin (π q)`
as `s ((v_j - mn_j) * (mode_kj / R_j) + 1/2)`, where `v` is the projected
input row), and every entry of the output matrix is `-1`, `0` or `1` — never
undefined. -/
theorem C2_generate_code_formula (s : ℚ → ℚ) (comps : List (List ℚ)) (pmean mn R : List ℚ)
    (modes : List (List ℤ)) (data : List (List ℚ)) :
    (∀ r, r < data.length → ∀ k, k < modes.length →
      ((generate_code s comps pmean mn R modes data).getD r []).getD k 0 =
        npSign ((List.zipWith (fun x w => s (x * w + 1 / 2))
          (List.zipWith (fun x y => x - y) (pcaTransformRow comps pmean (data.getD r [])) mn)
          (omegaRow (modes.getD k []) R)).prod)) ∧
    (∀ row ∈ generate_code s comps pmean mn R modes data, ∀ e ∈ row,
      e = -1 ∨ e = 0 ∨ e = 1) := by
  constructor
  · intro r hr k hk
    rw [generate_code_getD hr, map_getD_encodeBit hk, encodeBit]
  · intro row hrow e he
    rw [generate_code] at hrow
    obtain ⟨v, _, rfl⟩ := List.mem_map.mp hrow
    obtain ⟨mr, _, rfl⟩ := List.mem_map.mp he
    exact npSign_cases _

theorem C2_witness :
    ((generate_code (fun q => q) [[(1 : ℚ)]] [0] [0] [1] [[1]] [[(1 : ℚ)]]).getD 0 []).getD 0 0 =
      npSign ((List.zipWith (fun x w => (fun (q : ℚ) => q) (x * w + 1 / 2))
        (List.zipWith (fun x y => x - y)
          (pcaTransformRow [[(1 : ℚ)]] [0] ([[(1 : ℚ)]].getD 0 [])) [0])
        (omegaRow ([[(1 : ℤ)]].getD 0 []) [1])).prod) :=
  (C2_generate_code_formula (fun q => q) [[(1 : ℚ)]] [0] [0] [1] [[1]] [[(1 : ℚ)]]).1
    0 (by decide) 0 (by decide)

/-- C3: `max_mode[i] = ⌈(L+1) · R_i / max R⌉` for every dimension; the
candidate set has `sum(max_mode) - L + 1` rows, namely the all-zero row
(row 0) plus exactly the single-axis rows carrying one mode index
`1 ≤ v ≤ max_mode[i] - 1`; and every row's eigenvalue is
`-Σ_j (mode_j · π / R_j)² = -π² · eigKey row R`, the rational key the
embedded sort uses. -/
theorem C3_enumeration (L : ℕ) (R : List ℚ) (hL : 1 ≤ L) (hlen : R.length = L)
    (hp : ∀ x ∈ R, 0 < x) :
    (∀ c, c < L → (max_mode L R).getD c 0 = ⌈((L : ℚ) + 1) * R.getD c 0 / listMax R⌉) ∧
    ((candidateRows L R).length : ℤ) = (max_mode L R).sum - L + 1 ∧
    (candidateRows L R).getD 0 [] = List.replicate L 0 ∧
    (∀ r, 1 ≤ r → r < (candidateRows L R).length →
      ∃ i, i < L ∧ ∃ v : ℤ, 1 ≤ v ∧ v ≤ (max_mode L R).getD i 0 - 1 ∧
        (candidateRows L R).getD r [] = singleAxis L i v) ∧
    (∀ i, i < L → ∀ v : ℤ, 1 ≤ v → v ≤ (max_mode L R).getD i 0 - 1 →
      singleAxis L i v ∈ candidateRows L R) ∧
    (∀ row, eig_val row R = -(Real.pi ^ 2 * (eigKey row R : ℝ))) := by
  have hge := n_modes_ge hL hlen hp
  have hnm : n_modes L R = (max_mode L R).sum - (L : ℤ) + 1 := by rw [n_modes, hlen]
  refine ⟨?_, ?_, candidateRows_zero hL hlen hp, ?_, ?_, fun row => eig_val_eq row R⟩
  · intro c hc
    exact max_mode_getD (by rw [hlen]; exact hc)
  · rw [candidateRows_length]
    omega
  · intro r hr0 hr
    rw [candidateRows_length] at hr
    obtain ⟨i, hiL, v, hv1, hv2, hS, _⟩ := candidateRow_pos hL hlen hp hr0 hr
    exact ⟨i, hiL, v, hv1, hv2, hS⟩
  · intro i hiL v hv1 hv2
    exact singleAxis_mem hL hlen hp hiL hv1 hv2

theorem C3_witness :
    (∀ c, c < 2 → (max_mode 2 [(1 : ℚ), 2]).getD c 0 =
      ⌈((2 : ℚ) + 1) * [(1 : ℚ), 2].getD c 0 / listMax [(1 : ℚ), 2]⌉) ∧
    ((candidateRows 2 [(1 : ℚ), 2]).length : ℤ) = (max_mode 2 [(1 : ℚ), 2]).sum - 2 + 1 ∧
    (candidateRows 2 [(1 : ℚ), 2]).getD 0 [] = List.replicate 2 0 ∧
    (∀ r, 1 ≤ r → r < (candidateRows 2 [(1 : ℚ), 2]).length →
      ∃ i, i < 2 ∧ ∃ v : ℤ, 1 ≤ v ∧ v ≤ (max_mode 2 [(1 : ℚ), 2]).getD i 0 - 1 ∧
        (candidateRows 2 [(1 : ℚ), 2]).getD r [] = singleAxis 2 i v) ∧
    (∀ i, i < 2 → ∀ v : ℤ, 1 ≤ v → v ≤ (max_mode 2 [(1 : ℚ), 2]).getD i 0 - 1 →
      singleAxis 2 i v ∈ candidateRows 2 [(1 : ℚ), 2]) ∧
    (∀ row, eig_val row [(1 : ℚ), 2] = -(Real.pi ^ 2 * (eigKey row [(1 : ℚ), 2] : ℝ))) :=
  C3_enumeration 2 [(1 : ℚ), 2] (by decide) (by decide) (by decide)

/-- C4: for every `L ≥ 1` and strictly positive ranges the enumeration yields
at least `L` non-constant candidates (`sum(max_mode) - L ≥ L`, i.e. at least
`L + 1` candidates including the all-zero row), so selecting exactly `L` rows
after dropping the constant mode always succeeds. -/
theorem C4_enough_modes (L : ℕ) (R : List ℚ) (hL : 1 ≤ L) (hlen : R.length = L)
    (hp : ∀ x ∈ R, 0 < x) :
    (L : ℤ) ≤ (max_mode L R).sum - L ∧
    (L : ℤ) + 1 ≤ n_modes L R ∧
    (L : ℤ) + 1 ≤ ((candidateRows L R).length : ℤ) ∧
    ∃ T, buildModeTable L R = .ok T ∧ T.length = L := by
  have hge := n_modes_ge hL hlen hp
  have hnm : n_modes L R = (max_mode L R).sum - (L : ℤ) + 1 := by rw [n_modes, hlen]
  refine ⟨by omega, hge, ?_, _, buildModeTable_ok hL hlen hp, tableRows_length hL hlen hp⟩
  rw [candidateRows_length]
  omega

theorem C4_witness :
    (2 : ℤ) ≤ (max_mode 2 [(1 : ℚ), 2]).sum - 2 ∧
    (2 : ℤ) + 1 ≤ n_modes 2 [(1 : ℚ), 2] ∧
    (2 : ℤ) + 1 ≤ ((candidateRows 2 [(1 : ℚ), 2]).length : ℤ) ∧
    ∃ T, buildModeTable 2 [(1 : ℚ), 2] = .ok T ∧ T.length = 2 :=
  C4_enough_modes 2 [(1 : ℚ), 2] (by decide) (by decide) (by decide)

/-- C5 counterexample: with `L = 2` and degenerate ranges `[0, 1]` only
`2 < L + 1 = 3` candidate rows are enumerated, yet the construction does not
fail with `InsufficientModesError`: it silently returns a truncated table of
`1 ≠ L` rows, refuting the claimed defensive check. -/
theorem C5_counterexample :
    n_modes 2 [(0 : ℚ), 1] = 2 ∧ n_modes 2 [(0 : ℚ), 1] < 2 + 1 ∧
    buildModeTable 2 [(0 : ℚ), 1] ≠ .error .insufficientModes ∧
    ∃ T, buildModeTable 2 [(0 : ℚ), 1] = .ok T ∧ T.length = 1 := by
  have hmm : max_mode 2 [(0 : ℚ), 1] = [0, 3] := by norm_num [max_mode, listMax]
  have hnm : n_modes 2 [(0 : ℚ), 1] = 2 := by rw [n_modes, hmm]; rfl
  have hcand : candidateRows 2 [(0 : ℚ), 1] = [[0, 1], [0, 2]] := by
    rw [candidateRows, hnm]
    simp only [modesFun, hmm]
    decide
  have h12 : eigLe [(0 : ℚ), 1] [0, 1] [0, 2] := by
    rw [eigLe]
    norm_num [eigKey]
  have hsort : sortedCandidates 2 [(0 : ℚ), 1] = [[0, 1], [0, 2]] := by
    rw [sortedCandidates, hcand]
    simp only [List.insertionSort, List.orderedInsert, if_pos h12]
  have hbuild : buildModeTable 2 [(0 : ℚ), 1] = .ok [[0, 2]] := by
    rw [buildModeTable, if_neg (by rw [hnm]; decide), hsort]
    rfl
  refine ⟨hnm, by rw [hnm]; decide, ?_, [[0, 2]], hbuild, rfl⟩
  rw [hbuild]
  intro h
  exact Except.noConfusion h

/-- C5 amended: the code performs no insufficient-modes check — the
construction never returns `InsufficientModesError` on any input (when fewer
than `L + 1` candidates exist the selection silently truncates instead) —
and the guarded condition is indeed unreachable for `L ≥ 1` with strictly
positive ranges, where at least `L + 1` candidates are always enumerated. -/
theorem C5_no_check (L : ℕ) (R : List ℚ) :
    buildModeTable L R ≠ .error .insufficientModes ∧
    (1 ≤ L → R.length = L → (∀ x ∈ R, 0 < x) → (L : ℤ) + 1 ≤ n_modes L R) := by
  constructor
  · rw [buildModeTable]
    split_ifs <;> simp
  · intro hL hlen hp
    exact n_modes_ge hL hlen hp

theorem C5_no_check_witness :
    buildModeTable 2 [(1 : ℚ), 2] ≠ .error .insufficientModes ∧
    (2 : ℤ) + 1 ≤ n_modes 2 [(1 : ℚ), 2] :=
  ⟨(C5_no_check 2 [(1 : ℚ), 2]).1,
    (C5_no_check 2 [(1 : ℚ), 2]).2 (by decide) (by decide) (by decide)⟩

/-- C6: fitting the projector on an `N × D` matrix with code length `L` fails
with `DimensionError` exactly when `L > D` or `N < L`, and otherwise succeeds
with the solver's top-`L` directions and the global (column-mean) vector; the
fit is a pure function of its inputs, so the input matrix is not mutated. -/
theorem C6_pcaFit (solve : List (List ℚ) → ℕ → List (List ℚ)) (L : ℕ)
    (X : List (List ℚ)) :
    (pcaFit solve L X = .error .dimensionError ↔ (L > ncols X ∨ X.length < L)) ∧
    (¬(L > ncols X ∨ X.length < L) →
      pcaFit solve L X = .ok ⟨solve X L, colMeans X⟩) := by
  constructor
  · constructor
    · intro h
      by_contra hc
      rw [pcaFit, if_neg hc] at h
      exact Except.noConfusion h
    · intro h
      rw [pcaFit, if_pos h]
  · intro h
    rw [pcaFit, if_neg h]

theorem C6_witness :
    pcaFit (fun _ _ => [[(1 : ℚ)]]) 1 [[(1 : ℚ)], [3]] =
      .ok ⟨[[(1 : ℚ)]], colMeans [[(1 : ℚ)], [3]]⟩ :=
  (C6_pcaFit (fun _ _ => [[(1 : ℚ)]]) 1 [[(1 : ℚ)], [3]]).2 (by decide)

/-- C7: `generate_code` is deterministic — two invocations on identical
inputs produce bit-identical output matrices. -/
theorem C7_deterministic (s s' : ℚ → ℚ) (comps comps' : List (List ℚ))
    (pmean pmean' mn mn' R R' : List ℚ) (modes modes' : List (List ℤ))
    (data data' : List (List ℚ)) (hs : s = s') (hcomps : comps = comps')
    (hpmean : pmean = pmean') (hmn : mn = mn') (hR : R = R') (hmodes : modes = modes')
    (hdata : data = data') :
    generate_code s comps pmean mn R modes data =
      generate_code s' comps' pmean' mn' R' modes' data' := by
  subst hs hcomps hpmean hmn hR hmodes hdata
  rfl

theorem C7_witness :
    generate_code (fun q => q) [[(1 : ℚ)]] [0] [0] [1] [[1]] [[(1 : ℚ)]] =
      generate_code (fun q => q) [[(1 : ℚ)]] [0] [0] [1] [[1]] [[(1 : ℚ)]] :=
  C7_deterministic _ _ _ _ _ _ _ _ _ _ _ _ _ _ rfl rfl rfl rfl rfl rfl rfl

/-- C8: `generate_code` is row-independent — encoding the matrix row by row
and concatenating equals encoding the batch at once, and each output row is
determined by the corresponding input row alone (with bounds and modes). -/
theorem C8_row_independent (s : ℚ → ℚ) (comps : List (List ℚ)) (pmean mn R : List ℚ)
    (modes : List (List ℤ)) (data : List (List ℚ)) :
    (generate_code s comps pmean mn R modes data =
      (data.map (fun v => generate_code s comps pmean mn R modes [v])).flatten) ∧
    (∀ r, r < data.length →
      (generate_code s comps pmean mn R modes data).getD r [] =
        (generate_code s comps pmean mn R modes [data.getD r []]).getD 0 []) := by
  refine ⟨generate_code_flatten s comps pmean mn R modes data, ?_⟩
  intro r hr
  rw [generate_code_getD hr]
  simp only [generate_code, List.map_cons, List.map_nil, List.getD_cons_zero]

theorem C8_witness :
    (generate_code (fun q => q) [[(1 : ℚ)]] [0] [0] [1] [[1]] [[(1 : ℚ)]]).getD 0 [] =
      (generate_code (fun q => q) [[(1 : ℚ)]] [0] [0] [1] [[1]]
        [[[(1 : ℚ)]].getD 0 []]).getD 0 [] :=
  (C8_row_independent (fun q => q) [[(1 : ℚ)]] [0] [0] [1] [[1]] [[(1 : ℚ)]]).2
    0 (by decide)

/-- C9: the epsilon-padded bounds computed in `train` have strictly positive
range in every dimension (so `π / range` never divides by zero), and every
projected training value lies strictly inside `(mn, mx)` — even when a
projected dimension is constant across the training set. -/
theorem C9_bounds (X : List (List ℚ)) (hne : X ≠ []) (c : ℕ) (hc : c < ncols X) :
    0 < (ROf X).getD c 0 ∧
    (ROf X).getD c 0 ≠ 0 ∧
    ∀ row ∈ X, (mnOf X).getD c 0 < row.getD c 0 ∧ row.getD c 0 < (mxOf X).getD c 0 := by
  have hcv := colVals_ne_nil hne c
  have hminmax := listMin_le_listMax hcv
  have hR : (ROf X).getD c 0 = listMax (colVals X c) + eps - (listMin (colVals X c) - eps) := by
    rw [ROf_getD hc, mxOf_getD hc, mnOf_getD hc]
  have hEps := eps_pos
  refine ⟨by rw [hR]; linarith, by rw [hR]; linarith, ?_⟩
  intro row hrow
  have h1 := listMin_le (colVals_mem hrow c)
  have h2 := le_listMax (colVals_mem hrow c)
  rw [mnOf_getD hc, mxOf_getD hc]
  constructor <;> linarith

theorem C9_witness :
    0 < (ROf [[(1 : ℚ)], [1]]).getD 0 0 ∧
    (ROf [[(1 : ℚ)], [1]]).getD 0 0 ≠ 0 ∧
    ∀ row ∈ [[(1 : ℚ)], [1]],
      (mnOf [[(1 : ℚ)], [1]]).getD 0 0 < row.getD 0 0 ∧
      row.getD 0 0 < (mxOf [[(1 : ℚ)], [1]]).getD 0 0 :=
  C9_bounds [[(1 : ℚ)], [1]] (by decide) 0 (by decide)

/-- C10: every selected mode-table row has exactly one strictly positive
entry (a single-axis harmonic with mode index at least 1) and zeros
elsewhere; consequently, for any sinusoid parameter with `s (1/2) = 1`
(true of `q ↦ sin (π q)`), the corresponding hash bit is the sign of a
sinusoid of exactly that one projected dimension. -/
theorem C10_single_axis (L : ℕ) (R : List ℚ) (hL : 1 ≤ L) (hlen : R.length = L)
    (hp : ∀ x ∈ R, 0 < x) :
    ∃ T, buildModeTable L R = .ok T ∧
      ∀ row ∈ T, ∃ i, i < L ∧ 0 < row.getD i 0 ∧
        (∀ c, c < L → c ≠ i → row.getD c 0 = 0) ∧
        ∀ (s : ℚ → ℚ), s (1 / 2) = 1 → ∀ sh : List ℚ, sh.length = L →
          encodeBit s sh row R =
            npSign (s (sh.getD i 0 * ((row.getD i 0 : ℚ) / R.getD i 0) + 1 / 2)) := by
  refine ⟨_, buildModeTable_ok hL hlen hp, ?_⟩
  intro row hrow
  obtain ⟨i, hiL, v, hv1, hv2, rfl⟩ := tableRows_singleAxis hL hlen hp hrow
  have hgetD_i : (singleAxis L i v).getD i 0 = v := by
    rw [singleAxis_getD v hiL, if_pos rfl]
  refine ⟨i, hiL, by rw [hgetD_i]; omega, ?_, ?_⟩
  · intro c hc hci
    rw [singleAxis_getD v hc, if_neg hci]
  · intro s hs sh hsh
    rw [hgetD_i]
    exact encodeBit_singleAxis hs hiL hsh hlen

theorem C10_witness :
    ∃ T, buildModeTable 2 [(1 : ℚ), 2] = .ok T ∧
      ∀ row ∈ T, ∃ i, i < 2 ∧ 0 < row.getD i 0 ∧
        (∀ c, c < 2 → c ≠ i → row.getD c 0 = 0) ∧
        ∀ (s : ℚ → ℚ), s (1 / 2) = 1 → ∀ sh : List ℚ, sh.length = 2 →
          encodeBit s sh row [(1 : ℚ), 2] =
            npSign (s (sh.getD i 0 * ((row.getD i 0 : ℚ) / [(1 : ℚ), 2].getD i 0) + 1 / 2)) :=
  C10_single_axis 2 [(1 : ℚ), 2] (by decide) (by decide) (by decide)

end SH
